import Mathlib

/-!
Verification of the curamentorworker message-processing pipeline.

Shallow embedding of the Python sources:
- `curamentorworker/processor.py`: text chunking (`_chunk_text`), chunk
  enumeration in `_vectorize`, embedding averaging (`_average_embeddings`),
  text sanitization (`_sanitize_text`), database persistence
  (`_persist_document`), and the per-message control flow of
  `process_message`.
- `curamentorworker/s3_utils.py`: `apply_s3_prefix`.
- `curamentorworker/queue.py`: `delete_message` and `extend_visibility`.
- `curamentorworker/__main__.py`: the worker poll loop of `main`.

Python strings are modelled as `List Char`, floats as rationals (`ℚ`),
external effects (S3, SQS, PostgreSQL, the embedding backends) as explicit
outcome parameters, and raised exceptions as explicit result flags.
-/

namespace Curamentor

/-! ### Chunker: `VectorizationProcessor._chunk_text`

Python: `[text[i : i + chunk_size] for i in range(0, len(text), chunk_size)]`
guarded by `if not text: return []`.  For `chunk_size ≥ 1` the slice loop is
step-indexed by the number of characters consumed, so we embed it with a fuel
argument equal to `text.length`, which is enough fuel exactly when
`chunk_size ≥ 1`. -/

/-- One slicing step per fuel unit: emit `text[:k]` and continue on
`text[k:]`, stopping on the empty remainder. -/
def chunksFuel : Nat → Nat → List Char → List (List Char)
  | 0, _, _ => []
  | _ + 1, _, [] => []
  | f + 1, k, c :: cs => (c :: cs).take k :: chunksFuel f k ((c :: cs).drop k)

/-- Embeds `VectorizationProcessor._chunk_text(text, chunk_size)`. -/
def chunkText (text : List Char) (chunkSize : Nat) : List (List Char) :=
  if text = [] then [] else chunksFuel text.length chunkSize text

/-- The lengths of the produced chunks, computed at the `Nat` level:
`chunkLens fuel n k` are the chunk lengths for a text of `n` characters. -/
def chunkLens : Nat → Nat → Nat → List Nat
  | 0, _, _ => []
  | _ + 1, 0, _ => []
  | f + 1, n, k => min k n :: chunkLens f (n - k) k

/-- Embeds `VectorizationProcessor._sanitize_text`: strips NUL bytes
(`text.replace("\x00", "")`). -/
def sanitizeText (text : List Char) : List Char :=
  text.filter (fun c => c ≠ Char.ofNat 0)

/-- A chunk-level embedding payload as built in
`VectorizationProcessor._vectorize`. -/
structure ChunkPayload where
  chunkIndex : Nat
  chunkText : List Char
  embedding : List ℚ
  deriving DecidableEq, Repr

/-- Python `enumerate(xs, start=1)`. -/
def enumerate1 {α : Type} (xs : List α) : List (Nat × α) :=
  (List.range' 1 xs.length).zip xs

/-- The chunk payload list built by `VectorizationProcessor._vectorize` from
the chunks of `text`, with the embedding backend abstracted as `embed`. -/
def vectorizePayloads (text : List Char) (chunkSize : Nat)
    (embed : List Char → List ℚ) : List ChunkPayload :=
  (enumerate1 (chunkText text chunkSize)).map
    (fun p => ⟨p.1, sanitizeText p.2, embed p.2⟩)

/-! ### Averaging: `VectorizationProcessor._average_embeddings` -/

/-- Elementwise vector addition (`totals[idx] += value` over one vector). -/
def addVec (acc v : List ℚ) : List ℚ :=
  List.zipWith (fun a b => a + b) acc v

/-- The error message raised on a length mismatch. -/
def mismatchMsg : String := "Mismatched embedding lengths when averaging"

/-- The `for vector in embeddings` loop of `_average_embeddings`: accumulate
sums, raising `ValueError` when a vector's length differs from `n`. -/
def sumStep (n : Nat) : List ℚ → List (List ℚ) → Except String (List ℚ)
  | acc, [] => .ok acc
  | acc, v :: rest =>
      if v.length = n then sumStep n (addVec acc v) rest
      else .error mismatchMsg

/-- Embeds `VectorizationProcessor._average_embeddings` on rational vectors. -/
def averageEmbeddings (embeddings : List (List ℚ)) : Except String (List ℚ) :=
  match embeddings with
  | [] => .ok []
  | e0 :: _ =>
      match sumStep e0.length (List.replicate e0.length 0) embeddings with
      | .ok totals => .ok (totals.map (fun v => v / (embeddings.length : ℚ)))
      | .error e => .error e

/-! ### S3 prefix application: `s3_utils.apply_s3_prefix` -/

/-- Python `s.lstrip("/")`. -/
def lstripSlash (s : List Char) : List Char :=
  s.dropWhile (fun c => c = '/')

/-- Python `s.strip("/")`. -/
def stripSlash (s : List Char) : List Char :=
  ((lstripSlash s).reverse.dropWhile (fun c => c = '/')).reverse

/-- Python `a.startswith(b)` (here with the pattern first). -/
def beginsWith : List Char → List Char → Bool
  | [], _ => true
  | _ :: _, [] => false
  | p :: ps, c :: cs => p = c && beginsWith ps cs

/-- Embeds `s3_utils.apply_s3_prefix(prefix, key)`. -/
def applyS3Prefix (pre key : List Char) : List Char :=
  let np := stripSlash pre
  let nk := lstripSlash key
  if np = [] then nk
  else if nk = [] then np
  else if nk = np ∨ beginsWith (np ++ ['/']) nk then nk
  else np ++ '/' :: nk

/-! ### Persistence: `VectorizationProcessor._persist_document`

The database table `publication_vectors` is modelled as a list of rows; the
SQL in `_persist_document` is a plain `INSERT` executed once per chunk inside
one connection, so the embedding appends one row per chunk.  JSON
serialization of the metadata dict (`json.dumps`) is abstracted: the function
receives the already-serialized, sanitized metadata payload. -/

/-- One row of `publication_vectors`. -/
structure Row where
  key : List Char
  publicationId : Option (List Char)
  metadata : List Char
  vector : List ℚ
  chunkIndex : Nat
  chunkText : List Char
  createdAt : Nat
  updatedAt : Nat
  deriving DecidableEq, Repr

/-- The row inserted for one chunk by the `INSERT` statement of
`_persist_document` (`now = datetime.utcnow()` taken once per call). -/
def mkRow (key metadataPayload : List Char) (pubId : Option (List Char))
    (now : Nat) (c : ChunkPayload) : Row :=
  { key := key, publicationId := pubId, metadata := metadataPayload,
    vector := c.embedding, chunkIndex := c.chunkIndex,
    chunkText := sanitizeText c.chunkText, createdAt := now, updatedAt := now }

/-- Embeds `VectorizationProcessor._persist_document`: one plain `INSERT` per chunk
payload, appended to the table state `db`. -/
def persistDocument (db : List Row) (key metadataPayload : List Char)
    (chunks : List ChunkPayload) (pubId : Option (List Char)) (now : Nat) :
    List Row :=
  db ++ chunks.map (mkRow key metadataPayload pubId now)

/-- Number of rows of `db` for a given `(documentKey, chunkIndex)` pair. -/
def rowCount (db : List Row) (key : List Char) (i : Nat) : Nat :=
  (db.filter (fun r => r.key = key ∧ r.chunkIndex = i)).length

/-! ### Per-message control flow: `VectorizationProcessor.process_message`
and the per-message handling in `__main__.main`

External effects are abstracted into an environment describing how each
effectful step would turn out for this message; raised Python exceptions
become an explicit `raised` flag on the outcome. -/

/-- The decoded message body (`json.loads(raw_message["Body"])`): `none`
for a field means the JSON key is absent (`payload["key"]` then raises
`KeyError`; `payload.get("bucket")` then yields `None`). -/
structure Payload where
  bucket : Option (List Char)
  key : Option (List Char)
  publicationId : Option (List Char)
  deriving DecidableEq, Repr

/-- How `_vectorize` would end for this message. -/
inductive VectorizeOutcome
  | raises
  | chunks (cs : List ChunkPayload)
  deriving DecidableEq, Repr

/-- Outcomes of the effectful steps for one message. -/
structure Env where
  vectorExists : Bool
  downloadRaises : Bool
  vectorize : VectorizeOutcome
  persistRaises : Bool
  deriving DecidableEq, Repr

/-- The log lines `process_message` can emit (identified by call site). -/
inductive LogEvent
  | missingBucketOrKey
  | skippingExisting
  | processing
  | noChunks
  | cleanedUp
  deriving DecidableEq, Repr

/-- The observable outcome of one `process_message` call. -/
structure ProcOutcome where
  tempCreated : Bool
  tempRemoved : Bool
  persisted : Bool
  raised : Bool
  logs : List LogEvent
  deriving DecidableEq, Repr

/-- Embeds `bucket = payload.get("bucket") or self._settings.s3_bucket_name`:
Python `or` falls through on `None` and on the empty string. -/
def effectiveBucket (s3BucketName : List Char) (p : Payload) : List Char :=
  match p.bucket with
  | none => s3BucketName
  | some b => if b = [] then s3BucketName else b

/-- Embeds `VectorizationProcessor.process_message`, with `s3BucketName` standing
for `settings.s3_bucket_name` and `env` for the external world. -/
def processMessage (s3BucketName : List Char) (p : Payload) (env : Env) :
    ProcOutcome :=
  match p.key with
  | none =>
      -- `payload["key"]` raises KeyError before any check or effect.
      ⟨false, false, false, true, []⟩
  | some key =>
      let bucket := effectiveBucket s3BucketName p
      if bucket = [] ∨ key = [] then
        ⟨false, false, false, false, [.missingBucketOrKey]⟩
      else if env.vectorExists then
        ⟨false, false, false, false, [.skippingExisting]⟩
      else if env.downloadRaises then
        -- `tempfile.NamedTemporaryFile(delete=False)` has already created
        -- the file when `download_file` raises.
        ⟨true, false, false, true, [.processing]⟩
      else
        match env.vectorize with
        | .raises => ⟨true, false, false, true, [.processing]⟩
        | .chunks [] =>
            ⟨true, true, false, false, [.processing, .noChunks]⟩
        | .chunks (_ :: _) =>
            if env.persistRaises then
              ⟨true, false, false, true, [.processing]⟩
            else
              ⟨true, true, true, false, [.processing, .cleanedUp]⟩

/-- The per-message `try/except/finally` of `__main__.main`: `processed` is
true only when `process_message` returned normally, and the message is
acknowledged (`queue.delete_message`) only when `processed` and a receipt
handle is present.  Returns the processing outcome and the ack decision. -/
def handleMessage (s3BucketName : List Char) (p : Payload) (env : Env)
    (hasReceipt : Bool) : ProcOutcome × Bool :=
  let o := processMessage s3BucketName p env
  (o, !o.raised && hasReceipt)

/-! ### Queue operations: `FIFOQueue.delete_message` /
`FIFOQueue.extend_visibility`, and the poll loop of `__main__.main` -/

/-- How one boto3 SQS client call turns out. -/
inductive ClientResult
  | success
  | invalidParameterValue
  | otherError
  deriving DecidableEq, Repr

/-- Log lines of the queue wrapper. -/
inductive QueueLog
  | deleted
  | deleteExpired
  | extended
  | extendExpired
  deriving DecidableEq, Repr

/-- Outcome of one queue wrapper call. -/
structure QueueOutcome where
  logs : List QueueLog
  raised : Bool
  deriving DecidableEq, Repr

/-- Embeds `FIFOQueue.delete_message`: catches only
`InvalidParameterValue` (expired receipt); other client errors propagate. -/
def deleteMessage (r : ClientResult) : QueueOutcome :=
  match r with
  | .success => ⟨[.deleted], false⟩
  | .invalidParameterValue => ⟨[.deleteExpired], false⟩
  | .otherError => ⟨[], true⟩

/-- Embeds `FIFOQueue.extend_visibility`: same shape as `delete_message`. -/
def extendVisibility (r : ClientResult) : QueueOutcome :=
  match r with
  | .success => ⟨[.extended], false⟩
  | .invalidParameterValue => ⟨[.extendExpired], false⟩
  | .otherError => ⟨[], true⟩

/-- One message as the poll loop sees it: whether `process_message` raised
(any such exception is caught by the inner `except Exception`), whether the
message carries a `ReceiptHandle`, and how the ack call would turn out. -/
inductive MsgEvent
  | procOk (hasReceipt : Bool) (ackResult : ClientResult)
  | procFails
  deriving DecidableEq, Repr

/-- One iteration's receive outcome. -/
inductive PollEvent
  | recvRaises
  | recvBatch (msgs : List MsgEvent)
  deriving DecidableEq, Repr

/-- How a (finite prefix of the) loop run ends. -/
inductive LoopEnd
  | crashed
  | stillPolling
  deriving DecidableEq, Repr

/-- The inner `for message in messages` loop body of `main`: per-message
exceptions are caught; the `finally` block acknowledges processed messages,
and an ack failure other than an expired receipt escapes the loop. -/
def handleBatch : List MsgEvent → Option Unit
  | [] => some ()
  | .procOk hasReceipt ackResult :: rest =>
      if hasReceipt ∧ (deleteMessage ackResult).raised then none
      else handleBatch rest
  | .procFails :: rest => handleBatch rest

/-- The `while True` poll loop of `main` over a finite trace of receive
outcomes; the surrounding `try` catches only `KeyboardInterrupt`, so any
other exception escaping an iteration ends the loop as `crashed`. -/
def runLoop : List PollEvent → LoopEnd
  | [] => .stillPolling
  | .recvRaises :: _ => .crashed
  | .recvBatch ms :: rest =>
      match handleBatch ms with
      | none => .crashed
      | some _ => runLoop rest

end Curamentor


namespace Curamentor

/-- C9: `delete_message` and `extend_visibility` tolerate an expired lease
handle: an `InvalidParameterValue` client error is logged and the call
returns normally; on success the message is deleted (or its visibility
extended) and that is logged. -/
theorem claim_C9_queue_ops_tolerate_expired :
    (deleteMessage .invalidParameterValue).raised = false
    ∧ (deleteMessage .invalidParameterValue).logs = [.deleteExpired]
    ∧ (deleteMessage .success).raised = false
    ∧ (deleteMessage .success).logs = [.deleted]
    ∧ (extendVisibility .invalidParameterValue).raised = false
    ∧ (extendVisibility .invalidParameterValue).logs = [.extendExpired]
    ∧ (extendVisibility .success).raised = false
    ∧ (extendVisibility .success).logs = [.extended] :=
  ⟨rfl, rfl, rfl, rfl, rfl, rfl, rfl, rfl⟩

/-- C10: the configured default bucket is substituted for a missing or empty
`bucket` field before the missing-bucket check, so (with a present, non-empty
key) the fatal missing-bucket path is taken exactly when the default is also
empty; an empty `key` is fatal regardless of any configuration, i.e. the key
is never defaulted. -/
theorem claim_C10_bucket_defaulting (s : List Char) (p : Payload) (env : Env)
    (k : List Char) (hk : p.key = some k) (hknz : k ≠ []) :
    ((processMessage s p env).logs = [.missingBucketOrKey] ↔
      ((p.bucket = none ∨ p.bucket = some []) ∧ s = []))
    ∧ (∀ (b : Option (List Char)) (pub : Option (List Char)) (env2 : Env),
        (processMessage s ⟨b, some [], pub⟩ env2).logs
          = [LogEvent.missingBucketOrKey]) := by
  constructor
  · obtain ⟨b, pk, pub⟩ := p
    simp only at hk
    subst hk
    simp only [processMessage, effectiveBucket]
    cases b with
    | none =>
        by_cases hs : s = [] <;>
          simp [hs, hknz] <;>
          rcases env.vectorExists with _ | _ <;>
          rcases env.downloadRaises with _ | _ <;>
          rcases env.vectorize with _ | ⟨_ | _⟩ <;>
          simp_all <;> split <;> simp
    | some bv =>
        by_cases hbv : bv = [] <;> by_cases hs : s = [] <;>
          simp [hbv, hs, hknz] <;>
          rcases env.vectorExists with _ | _ <;>
          rcases env.downloadRaises with _ | _ <;>
          rcases env.vectorize with _ | ⟨_ | _⟩ <;>
          simp_all <;> split <;> simp
  · intro b pub env2
    simp [processMessage]

/-- C8: a fetched and extracted message that produces zero chunks is a
terminal success: nothing is persisted, the skipped-empty warning is logged,
the temporary file is removed, `process_message` returns normally, and the
message is acknowledged. -/
theorem claim_C8_zero_chunks_ack (s : List Char) (p : Payload) (env : Env)
    (k : List Char) (hk : p.key = some k) (hknz : k ≠ [])
    (hb : effectiveBucket s p ≠ [])
    (hex : env.vectorExists = false) (hdl : env.downloadRaises = false)
    (hv : env.vectorize = .chunks []) :
    (handleMessage s p env true).1.persisted = false
    ∧ (handleMessage s p env true).1.tempRemoved = true
    ∧ (handleMessage s p env true).1.raised = false
    ∧ (handleMessage s p env true).1.logs = [.processing, .noChunks]
    ∧ (handleMessage s p env true).2 = true := by
  obtain ⟨b, pk, pub⟩ := p
  simp only at hk
  subst hk
  simp only [handleMessage, processMessage] at *
  simp [hb, hknz, hex, hdl, hv]

/-- C8 witness: a concrete zero-chunk message is acknowledged with the
temporary file removed and nothing persisted. -/
theorem claim_C8_zero_chunks_ack_witness :
    (handleMessage ['b'] ⟨some ['b'], some ['k'], none⟩
        ⟨false, false, .chunks [], false⟩ true).1.persisted = false
    ∧ (handleMessage ['b'] ⟨some ['b'], some ['k'], none⟩
        ⟨false, false, .chunks [], false⟩ true).1.tempRemoved = true
    ∧ (handleMessage ['b'] ⟨some ['b'], some ['k'], none⟩
        ⟨false, false, .chunks [], false⟩ true).1.raised = false
    ∧ (handleMessage ['b'] ⟨some ['b'], some ['k'], none⟩
        ⟨false, false, .chunks [], false⟩ true).1.logs = [.processing, .noChunks]
    ∧ (handleMessage ['b'] ⟨some ['b'], some ['k'], none⟩
        ⟨false, false, .chunks [], false⟩ true).2 = true :=
  claim_C8_zero_chunks_ack ['b'] ⟨some ['b'], some ['k'], none⟩
    ⟨false, false, .chunks [], false⟩ ['k'] rfl (by decide) (by decide)
    rfl rfl rfl

end Curamentor

namespace Curamentor

/-- C2 counterexample: a message whose fetch succeeds but whose
vectorize step raises leaves the temporary file in place — `process_message`
has no `try/finally` around `os.remove`, so cleanup is skipped on the
exception path. -/
theorem claim_C2_counterexample :
    (processMessage ['b'] ⟨some ['b'], some ['k'], none⟩
        ⟨false, false, .raises, false⟩).tempCreated = true
    ∧ (processMessage ['b'] ⟨some ['b'], some ['k'], none⟩
        ⟨false, false, .raises, false⟩).raised = true
    ∧ (processMessage ['b'] ⟨some ['b'], some ['k'], none⟩
        ⟨false, false, .raises, false⟩).tempRemoved = false := by
  refine ⟨rfl, rfl, rfl⟩

/-- C2 amended: once the temporary file has been created, it is removed
exactly on the exits where `process_message` returns normally (skipped-empty
and full success); on any exception raised by the download transfer, the
extract/chunk/embed step or the persist step the file is left behind. -/
theorem claim_C2_temp_cleanup_amended (s : List Char) (p : Payload) (env : Env)
    (hc : (processMessage s p env).tempCreated = true) :
    (processMessage s p env).tempRemoved = !(processMessage s p env).raised := by
  obtain ⟨b, pk, pub⟩ := p
  cases pk with
  | none => simp [processMessage] at hc
  | some k =>
      simp only [processMessage] at *
      split at hc
      · simp_all
      · split at hc
        · simp_all
        · split at hc
          · simp_all
          · rcases hv : env.vectorize with _ | ⟨_ | _⟩ <;> simp_all <;> split <;> simp_all

/-- C2 witness: on a concrete successful message the temporary file is
removed and no exception was raised. -/
theorem claim_C2_temp_cleanup_amended_witness :
    (processMessage ['b'] ⟨some ['b'], some ['k'], none⟩
        ⟨false, false, .chunks [⟨1, ['t'], [1]⟩], false⟩).tempRemoved
      = !(processMessage ['b'] ⟨some ['b'], some ['k'], none⟩
        ⟨false, false, .chunks [⟨1, ['t'], [1]⟩], false⟩).raised :=
  claim_C2_temp_cleanup_amended ['b'] ⟨some ['b'], some ['k'], none⟩
    ⟨false, false, .chunks [⟨1, ['t'], [1]⟩], false⟩ rfl

/-- C3 counterexample: a message whose body has no `bucket` field, with an
empty configured default bucket, is logged and `process_message` returns
normally — `main` then sees `processed = True` and acknowledges (deletes)
the message, contradicting the claim that it is left for redelivery. -/
theorem claim_C3_counterexample :
    (handleMessage [] ⟨none, some ['k'], none⟩
        ⟨false, false, .chunks [], false⟩ true).1.logs = [.missingBucketOrKey]
    ∧ (handleMessage [] ⟨none, some ['k'], none⟩
        ⟨false, false, .chunks [], false⟩ true).1.raised = false
    ∧ (handleMessage [] ⟨none, some ['k'], none⟩
        ⟨false, false, .chunks [], false⟩ true).2 = true := by
  refine ⟨rfl, rfl, rfl⟩

/-- C3 amended: a body with no `key` field raises `KeyError`, which `main`
catches, so that message is not acknowledged; a body whose bucket resolves to
empty (or whose key is the empty string) is logged as missing-bucket-or-key
and `process_message` returns normally, after which `main` acknowledges the
message.  In both cases no fetch, embed or persist is attempted. -/
theorem claim_C3_missing_fields_amended (s : List Char) (p : Payload)
    (env : Env) (hasReceipt : Bool) :
    (p.key = none →
      (handleMessage s p env hasReceipt).1.raised = true
      ∧ (handleMessage s p env hasReceipt).1.tempCreated = false
      ∧ (handleMessage s p env hasReceipt).1.persisted = false
      ∧ (handleMessage s p env hasReceipt).2 = false)
    ∧ (∀ k, p.key = some k → (k = [] ∨ effectiveBucket s p = []) →
      (handleMessage s p env hasReceipt).1.logs = [.missingBucketOrKey]
      ∧ (handleMessage s p env hasReceipt).1.raised = false
      ∧ (handleMessage s p env hasReceipt).1.tempCreated = false
      ∧ (handleMessage s p env hasReceipt).1.persisted = false
      ∧ (handleMessage s p env hasReceipt).2 = hasReceipt) := by
  obtain ⟨b, pk, pub⟩ := p
  constructor
  · intro hk
    simp only at hk
    subst hk
    simp [handleMessage, processMessage]
  · intro k hk hfatal
    simp only at hk
    subst hk
    have : effectiveBucket s ⟨b, some k, pub⟩ = [] ∨ k = [] := hfatal.symm
    simp only [handleMessage, processMessage]
    rcases hfatal with h | h <;> simp [h]

/-- C1 counterexample: persisting key `K` with vector `[1]` for chunk 1 and
then again with vector `[2]` for chunk 1 leaves two rows for
`(K, chunkIndex 1)` — the SQL is a plain `INSERT` with no `ON CONFLICT`
clause, so the second write duplicates instead of updating. -/
theorem claim_C1_counterexample :
    rowCount
      (persistDocument
        (persistDocument [] ['K'] ['m'] [⟨1, ['t'], [1]⟩] none 0)
        ['K'] ['m'] [⟨1, ['t'], [2]⟩] none 1)
      ['K'] 1 = 2
    ∧ rowCount
      (persistDocument
        (persistDocument [] ['K'] ['m'] [⟨1, ['t'], [1]⟩] none 0)
        ['K'] ['m'] [⟨1, ['t'], [2]⟩] none 1)
      ['K'] 1 ≠ 1 := by
  refine ⟨rfl, by decide⟩

end Curamentor

namespace Curamentor

/-- Appending table states adds row counts. -/
theorem rowCount_append (a b : List Row) (k : List Char) (i : Nat) :
    rowCount (a ++ b) k i = rowCount a k i + rowCount b k i := by
  simp [rowCount, List.filter_append]

/-- The rows inserted by one `_persist_document` call contribute, for a pair
`(k, i)`, exactly the chunks with index `i` when `k` is the persisted key. -/
theorem rowCount_inserted (key m : List Char) (pub : Option (List Char))
    (now : Nat) (chunks : List ChunkPayload) (k : List Char) (i : Nat) :
    rowCount (chunks.map (mkRow key m pub now)) k i
      = if k = key then (chunks.filter (fun c => c.chunkIndex = i)).length
        else 0 := by
  induction chunks with
  | nil => simp [rowCount]
  | cons c rest ih =>
      simp only [List.map_cons, rowCount, List.filter_cons] at *
      by_cases hk : k = key <;> by_cases hi : c.chunkIndex = i <;>
        simp_all [mkRow, hk, hi, eq_comm]

/-- C1 amended: the write in `_persist_document` is insert-only — it appends
one fresh row per chunk, never touching existing rows, so re-persisting a key
whose `(key, chunkIndex)` already has a row leaves at least two rows for that
pair; the only duplicate protection is the `_vector_exists` check, which
makes `process_message` skip the whole document (persisting nothing) when any
row for the key exists. -/
theorem claim_C1_persist_insert_amended (db : List Row) (key m : List Char)
    (chunks : List ChunkPayload) (pub : Option (List Char)) (now : Nat) :
    (∀ r ∈ db, r ∈ persistDocument db key m chunks pub now)
    ∧ (∀ k i, rowCount (persistDocument db key m chunks pub now) k i
        = rowCount db k i
          + if k = key then (chunks.filter (fun c => c.chunkIndex = i)).length
            else 0)
    ∧ (∀ i, 0 < rowCount db key i → (∃ c ∈ chunks, c.chunkIndex = i) →
        2 ≤ rowCount (persistDocument db key m chunks pub now) key i)
    ∧ (∀ s q env, env.vectorExists = true →
        (processMessage s q env).persisted = false) := by
  refine ⟨?_, ?_, ?_, ?_⟩
  · intro r hr
    exact List.mem_append_left _ hr
  · intro k i
    rw [persistDocument, rowCount_append, rowCount_inserted]
  · intro i hdb ⟨c, hc, hci⟩
    rw [persistDocument, rowCount_append, rowCount_inserted, if_pos rfl]
    have hmem : c ∈ chunks.filter (fun c => c.chunkIndex = i) :=
      List.mem_filter.2 ⟨hc, by simp [hci]⟩
    have : 0 < (chunks.filter (fun c => c.chunkIndex = i)).length :=
      List.length_pos.2 (fun h => by simp [h] at hmem)
    omega
  · intro s q env hex
    obtain ⟨b, pk, pub2⟩ := q
    cases pk with
    | none => simp [processMessage]
    | some k =>
        simp only [processMessage]
        split
        · simp
        · simp [hex]

/-- C4 counterexample: a transport error raised by the receive call is not
caught anywhere (`main` handles only `KeyboardInterrupt`), so the poll loop
terminates instead of logging, backing off and continuing. -/
theorem claim_C4_counterexample :
    runLoop [.recvRaises] = .crashed
    ∧ runLoop [.recvRaises] ≠ .stillPolling :=
  ⟨rfl, by decide⟩

/-- C4 amended: a transport error from the receive call, or an
acknowledge failure other than an expired receipt, propagates uncaught and
ends the poll loop; only per-message processing exceptions are caught, so a
batch whose acknowledgements all succeed (or fail only with expired
receipts) never ends the loop. -/
theorem claim_C4_loop_amended (rest : List PollEvent) (ms : List MsgEvent) :
    runLoop (.recvRaises :: rest) = .crashed
    ∧ (runLoop (.recvBatch ms :: rest) = .crashed ↔
        handleBatch ms = none ∨ runLoop rest = .crashed)
    ∧ ((∀ e ∈ ms, ∀ hr ar, e = .procOk hr ar → hr = true → ar ≠ .otherError) →
        handleBatch ms = some ()) := by
  refine ⟨rfl, ?_, ?_⟩
  · simp only [runLoop]
    cases h : handleBatch ms with
    | none => simp
    | some u => simp [h]
  · intro hok
    induction ms with
    | nil => rfl
    | cons e rest2 ih =>
        have hrest : ∀ x ∈ rest2, ∀ hr ar, x = .procOk hr ar →
            hr = true → ar ≠ .otherError :=
          fun x hx => hok x (List.mem_cons_of_mem _ hx)
        cases e with
        | procFails => exact ih hrest
        | procOk hr ar =>
            have hcond : ¬(hr = true ∧ (deleteMessage ar).raised = true) := by
              rintro ⟨h1, h2⟩
              have := hok _ (List.mem_cons_self _ _) hr ar rfl h1
              cases ar <;> simp_all [deleteMessage]
            simp only [handleBatch]
            rw [if_neg (by simpa using hcond)]
            exact ih hrest

end Curamentor

namespace Curamentor

/-- With positive chunk size and fuel at least the text length, the produced
chunks concatenate back to the text (contiguous, non-overlapping, in
order). -/
theorem chunksFuel_join (k : Nat) (hk : 0 < k) :
    ∀ (f : Nat) (t : List Char), t.length ≤ f → (chunksFuel f k t).flatten = t := by
  intro f
  induction f with
  | zero =>
      intro t ht
      have : t = [] := List.length_eq_zero.1 (Nat.le_zero.1 ht)
      subst this
      rfl
  | succ f ih =>
      intro t ht
      cases t with
      | nil => rfl
      | cons c cs =>
          simp only [chunksFuel, List.flatten_cons]
          rw [ih ((c :: cs).drop k) ?_, List.take_append_drop]
          rw [List.length_drop]
          simp only [List.length_cons] at ht ⊢
          omega

/-- The chunk lengths only depend on the text length. -/
theorem chunksFuel_map_length (k : Nat) :
    ∀ (f : Nat) (t : List Char),
      (chunksFuel f k t).map List.length = chunkLens f t.length k := by
  intro f
  induction f with
  | zero => intro t; rfl
  | succ f ih =>
      intro t
      cases t with
      | nil => rfl
      | cons c cs =>
          simp only [chunksFuel, List.map_cons, ih, List.length_take,
            List.length_drop, List.length_cons, chunkLens]

/-- Every produced chunk has at most `k` characters. -/
theorem chunksFuel_length_le (k : Nat) :
    ∀ (f : Nat) (t : List Char), ∀ c ∈ chunksFuel f k t, c.length ≤ k := by
  intro f
  induction f with
  | zero => intro t c hc; simp [chunksFuel] at hc
  | succ f ih =>
      intro t c hc
      cases t with
      | nil => simp [chunksFuel] at hc
      | cons a as =>
          simp only [chunksFuel, List.mem_cons] at hc
          rcases hc with rfl | hc
          · simp [List.length_take]
          · exact ih _ c hc

/-- Every chunk except possibly the last has exactly `k` characters. -/
theorem chunksFuel_dropLast_length (k : Nat) (hk : 0 < k) :
    ∀ (f : Nat) (t : List Char),
      ∀ c ∈ (chunksFuel f k t).dropLast, c.length = k := by
  intro f
  induction f with
  | zero => intro t c hc; simp [chunksFuel] at hc
  | succ f ih =>
      intro t c hc
      cases t with
      | nil => simp [chunksFuel] at hc
      | cons a as =>
          rw [chunksFuel] at hc
          cases hrest : chunksFuel f k ((a :: as).drop k) with
          | nil => rw [hrest] at hc; simp at hc
          | cons r rs =>
              rw [hrest, List.dropLast_cons₂] at hc
              rcases List.mem_cons.1 hc with rfl | hc2
              · have hne : (a :: as).drop k ≠ [] := by
                  intro h0
                  rw [h0] at hrest
                  cases f <;> simp [chunksFuel] at hrest
                have hlt : k < (a :: as).length := by
                  by_contra hle
                  push_neg at hle
                  exact hne (List.drop_eq_nil_of_le hle)
                simp only [List.length_take, List.length_cons] at hlt ⊢
                omega
              · exact ih ((a :: as).drop k) c (hrest ▸ hc2)

/-- The chunk indices attached in `_vectorize` by `enumerate(chunks, 1)` are
`1, 2, …, len(chunks)`. -/
theorem vectorizePayloads_indices (text : List Char) (k : Nat)
    (embed : List Char → List ℚ) :
    (vectorizePayloads text k embed).map (fun c => c.chunkIndex)
      = List.range' 1 (chunkText text k).length := by
  simp only [vectorizePayloads, enumerate1, List.map_map]
  have hf : ((fun c : ChunkPayload => c.chunkIndex) ∘
      (fun p : Nat × List Char => (⟨p.1, sanitizeText p.2, embed p.2⟩ : ChunkPayload)))
      = Prod.fst := rfl
  rw [hf]
  exact List.map_fst_zip _ _ (by simp)

/-- C5: with a positive chunk size, chunking splits the text into contiguous
non-overlapping slices in original order (their concatenation is the text),
each of length at most the chunk size with only the final slice possibly
shorter; the empty text yields no chunks; the chunk indices of `_vectorize`
are contiguous starting at 1; `chunk("", 4000) = []` and `chunk("a"*9000,
4000)` has chunk lengths 4000, 4000, 1000 with indices 1, 2, 3. -/
theorem claim_C5_chunking (text : List Char) (k : Nat)
    (embed : List Char → List ℚ) (hk : 0 < k) :
    (chunkText text k).flatten = text
    ∧ (∀ c ∈ chunkText text k, c.length ≤ k)
    ∧ (∀ c ∈ (chunkText text k).dropLast, c.length = k)
    ∧ chunkText [] k = []
    ∧ (vectorizePayloads text k embed).map (fun c => c.chunkIndex)
        = List.range' 1 (chunkText text k).length
    ∧ chunkText [] 4000 = []
    ∧ (chunkText (List.replicate 9000 'a') 4000).map List.length
        = [4000, 4000, 1000]
    ∧ (vectorizePayloads (List.replicate 9000 'a') 4000 embed).map
        (fun c => c.chunkIndex) = [1, 2, 3] := by
  have hne : List.replicate 9000 'a' ≠ [] := by
    intro h
    have h0 := congrArg List.length h
    rw [List.length_replicate] at h0
    exact absurd h0 (by decide)
  have h9 : (chunkText (List.replicate 9000 'a') 4000).map List.length
      = [4000, 4000, 1000] := by
    rw [chunkText, if_neg hne, chunksFuel_map_length, List.length_replicate]
    decide
  have h9len : (chunkText (List.replicate 9000 'a') 4000).length = 3 := by
    have h := congrArg List.length h9
    rw [List.length_map] at h
    exact h.trans rfl
  refine ⟨?_, ?_, ?_, rfl, vectorizePayloads_indices text k embed, rfl, h9, ?_⟩
  · rw [chunkText]
    split
    next h => rw [h]; rfl
    next h => exact chunksFuel_join k hk text.length text le_rfl
  · intro c hc
    rw [chunkText] at hc
    split at hc
    · simp at hc
    · exact chunksFuel_length_le k text.length text c hc
  · intro c hc
    rw [chunkText] at hc
    split at hc
    · simp at hc
    · exact chunksFuel_dropLast_length k hk text.length text c hc
  · rw [vectorizePayloads_indices, h9len]
    rfl

/-- C5 witness: the chunking properties at the concrete text "abc" with
chunk size 2. -/
theorem claim_C5_chunking_witness :
    0 < 2
    ∧ ((chunkText ['a', 'b', 'c'] 2).flatten = ['a', 'b', 'c']
      ∧ (∀ c ∈ chunkText ['a', 'b', 'c'] 2, c.length ≤ 2)
      ∧ (∀ c ∈ (chunkText ['a', 'b', 'c'] 2).dropLast, c.length = 2)
      ∧ chunkText [] 2 = []
      ∧ (vectorizePayloads ['a', 'b', 'c'] 2 (fun _ => [])).map
          (fun c => c.chunkIndex) = List.range' 1 (chunkText ['a', 'b', 'c'] 2).length
      ∧ chunkText [] 4000 = []
      ∧ (chunkText (List.replicate 9000 'a') 4000).map List.length
          = [4000, 4000, 1000]
      ∧ (vectorizePayloads (List.replicate 9000 'a') 4000 (fun _ => [])).map
          (fun c => c.chunkIndex) = [1, 2, 3]) :=
  ⟨by decide, claim_C5_chunking ['a', 'b', 'c'] 2 (fun _ => []) (by decide)⟩

end Curamentor

namespace Curamentor

/-- C10 witness: with no `bucket` field and an empty configured default, the
fatal missing-bucket log is emitted. -/
theorem claim_C10_bucket_defaulting_witness :
    ((processMessage [] ⟨none, some ['k'], none⟩
        ⟨false, false, .chunks [], false⟩).logs = [.missingBucketOrKey] ↔
      (((⟨none, some ['k'], none⟩ : Payload).bucket = none
          ∨ (⟨none, some ['k'], none⟩ : Payload).bucket = some [])
        ∧ ([] : List Char) = [])) :=
  (claim_C10_bucket_defaulting [] ⟨none, some ['k'], none⟩
    ⟨false, false, .chunks [], false⟩ ['k'] rfl (by decide)).1

/-- The sum `addVec` keeps the common length of its arguments. -/
theorem addVec_length (a v : List ℚ) :
    (addVec a v).length = min a.length v.length := by
  simp [addVec]

/-- Entrywise reading of `addVec` on equal-length vectors (out-of-range
entries default to 0 on both sides). -/
theorem addVec_getD (a : List ℚ) :
    ∀ (v : List ℚ), a.length = v.length →
      ∀ i, (addVec a v).getD i 0 = a.getD i 0 + v.getD i 0 := by
  induction a with
  | nil =>
      intro v h i
      have : v = [] := (List.length_eq_zero.1 h.symm)
      subst this
      simp [addVec]
  | cons x xs ih =>
      intro v h i
      cases v with
      | nil => simp at h
      | cons y ys =>
          cases i with
          | zero => simp [addVec]
          | succ j =>
              simp only [addVec, List.zipWith_cons_cons, List.getD_cons_succ]
              exact ih ys (by simpa using h) j

/-- On vectors that all have length `n`, the summing loop succeeds and
computes entrywise sums on top of the accumulator. -/
theorem sumStep_ok (n : Nat) :
    ∀ (es : List (List ℚ)) (acc : List ℚ), acc.length = n →
      (∀ v ∈ es, v.length = n) →
      ∃ r, sumStep n acc es = .ok r ∧ r.length = n ∧
        ∀ i, r.getD i 0 = acc.getD i 0 + (es.map (fun v => v.getD i 0)).sum := by
  intro es
  induction es with
  | nil =>
      intro acc hl _
      exact ⟨acc, rfl, hl, by simp⟩
  | cons v rest ih =>
      intro acc hl hv
      have hvn : v.length = n := hv v (List.mem_cons_self _ _)
      obtain ⟨r, hr, hrl, hget⟩ :=
        ih (addVec acc v) (by simp [addVec_length, hl, hvn])
          (fun w hw => hv w (List.mem_cons_of_mem _ hw))
      refine ⟨r, ?_, hrl, ?_⟩
      · simp [sumStep, hvn, hr]
      · intro i
        rw [hget i, addVec_getD acc v (hl.trans hvn.symm) i, List.map_cons,
          List.sum_cons]
        ring

/-- The summing loop raises the mismatch error exactly when some vector's
length differs from `n`. -/
theorem sumStep_error (n : Nat) :
    ∀ (es : List (List ℚ)) (acc : List ℚ),
      (sumStep n acc es = .error mismatchMsg ↔ ∃ v ∈ es, v.length ≠ n) := by
  intro es
  induction es with
  | nil => intro acc; simp [sumStep]
  | cons v rest ih =>
      intro acc
      by_cases hv : v.length = n
      · simp [sumStep, hv, ih]
      · simp [sumStep, hv]

/-- The summing loop produces no error message other than the mismatch
message. -/
theorem sumStep_error_msg (n : Nat) :
    ∀ (es : List (List ℚ)) (acc : List ℚ) (e : String),
      sumStep n acc es = .error e → e = mismatchMsg := by
  intro es
  induction es with
  | nil => intro acc e h; simp [sumStep] at h
  | cons v rest ih =>
      intro acc e h
      by_cases hv : v.length = n
      · rw [sumStep, if_pos hv] at h
        exact ih _ e h
      · rw [sumStep, if_neg hv] at h
        simpa [eq_comm] using h

/-- Entrywise reading of the final division map. -/
theorem getD_map_div (l : List ℚ) (c : ℚ) :
    ∀ i, (l.map (fun v => v / c)).getD i 0 = l.getD i 0 / c := by
  induction l with
  | nil => intro i; simp
  | cons x xs ih =>
      intro i
      cases i with
      | zero => simp
      | succ j => simpa using ih j

/-- The zero accumulator reads 0 at every index. -/
theorem getD_replicate_zero (n : Nat) :
    ∀ i, (List.replicate n (0 : ℚ)).getD i 0 = 0 := by
  induction n with
  | zero => intro i; simp
  | succ m ih =>
      intro i
      cases i with
      | zero => simp [List.replicate]
      | succ j => simpa [List.replicate] using ih j

/-- C6: `_average_embeddings` of equal-length vectors is the entrywise
arithmetic mean; the empty list averages to the empty vector without error;
the mismatch error is raised exactly when some vector's length differs from
the first vector's; `average([[1,2],[3,4]]) = [2, 3]`. -/
theorem claim_C6_average_embeddings (es : List (List ℚ)) (n : Nat)
    (hn : ∀ v ∈ es, v.length = n) :
    averageEmbeddings [] = .ok []
    ∧ averageEmbeddings [[1, 2], [3, 4]] = .ok [2, 3]
    ∧ (∀ fs : List (List ℚ),
        (averageEmbeddings fs = .error mismatchMsg
          ↔ ∃ v ∈ fs, v.length ≠ (fs.headD []).length))
    ∧ (es ≠ [] → ∃ r, averageEmbeddings es = .ok r ∧ r.length = n
        ∧ ∀ i, r.getD i 0
            = (es.map (fun v => v.getD i 0)).sum / (es.length : ℚ)) := by
  refine ⟨rfl, by norm_num [averageEmbeddings, sumStep, addVec, List.replicate], ?_, ?_⟩
  · intro fs
    cases fs with
    | nil => simp [averageEmbeddings]
    | cons e0 rest =>
        simp only [List.headD_cons]
        rw [averageEmbeddings]
        cases hsum : sumStep e0.length (List.replicate e0.length 0) (e0 :: rest) with
        | ok t =>
            simp only [hsum]
            constructor
            · intro h
              exact absurd h (by simp)
            · rintro ⟨v, hv, hlen⟩
              have h2 := (sumStep_error e0.length (e0 :: rest)
                (List.replicate e0.length 0)).2 ⟨v, hv, hlen⟩
              rw [hsum] at h2
              exact absurd h2 (by simp)
        | error e =>
            have he : e = mismatchMsg := sumStep_error_msg _ _ _ _ hsum
            subst he
            simp only [hsum]
            constructor
            · intro _
              exact (sumStep_error e0.length (e0 :: rest)
                (List.replicate e0.length 0)).1 hsum
            · intro _
              trivial
  · intro hne
    cases es with
    | nil => exact absurd rfl hne
    | cons e0 rest =>
        have hn0 : e0.length = n := hn e0 (List.mem_cons_self _ _)
        obtain ⟨r, hr, hrl, hget⟩ :=
          sumStep_ok e0.length (e0 :: rest) (List.replicate e0.length 0)
            (by simp) (fun v hv => (hn v hv).trans hn0.symm)
        refine ⟨r.map (fun v => v / (((e0 :: rest).length : Nat) : ℚ)), ?_, ?_, ?_⟩
        · rw [averageEmbeddings, hr]
        · rw [List.length_map, hrl, hn0]
        · intro i
          rw [getD_map_div, hget i, getD_replicate_zero, zero_add]

/-- C6 witness: the averaging properties applied at `[[1,2],[3,4]]`. -/
theorem claim_C6_average_embeddings_witness :
    (∀ v ∈ ([[1, 2], [3, 4]] : List (List ℚ)), v.length = 2)
    ∧ averageEmbeddings [[1, 2], [3, 4]] = .ok [2, 3] :=
  ⟨by decide, (claim_C6_average_embeddings [[1, 2], [3, 4]] 2 (by decide)).2.1⟩

end Curamentor

namespace Curamentor

/-- Unfolded form of `applyS3Prefix`. -/
theorem applyS3Prefix_def (pre key : List Char) :
    applyS3Prefix pre key =
      if stripSlash pre = [] then lstripSlash key
      else if lstripSlash key = [] then stripSlash pre
      else if lstripSlash key = stripSlash pre
          ∨ beginsWith (stripSlash pre ++ ['/']) (lstripSlash key) = true then
        lstripSlash key
      else stripSlash pre ++ '/' :: lstripSlash key := rfl

/-- Python `lstrip` leaves a list alone when its head is not a slash. -/
theorem lstripSlash_cons_ne (c : Char) (cs : List Char) (h : ¬ c = '/') :
    lstripSlash (c :: cs) = c :: cs := by
  simp [lstripSlash, List.dropWhile_cons, h]

/-- Python `lstrip` yields the empty list or a list not headed by a slash. -/
theorem lstripSlash_shape (s : List Char) :
    lstripSlash s = [] ∨ ∃ c cs, lstripSlash s = c :: cs ∧ ¬ c = '/' := by
  induction s with
  | nil => left; rfl
  | cons c cs ih =>
      by_cases h : c = '/'
      · simpa [lstripSlash, List.dropWhile_cons, h] using ih
      · right
        exact ⟨c, cs, by simp [lstripSlash, List.dropWhile_cons, h], h⟩

/-- Python `lstrip` is idempotent. -/
theorem lstripSlash_idem (s : List Char) :
    lstripSlash (lstripSlash s) = lstripSlash s := by
  rcases lstripSlash_shape s with h | ⟨c, cs, h, hc⟩
  · rw [h]; rfl
  · rw [h]
    exact lstripSlash_cons_ne c cs hc

/-- The function `dropWhile` removes a left part of its input. -/
theorem dropWhile_is_suffix (p : Char → Bool) :
    ∀ (l : List Char), ∃ u, u ++ l.dropWhile p = l := by
  intro l
  induction l with
  | nil => exact ⟨[], rfl⟩
  | cons c cs ih =>
      by_cases h : p c
      · obtain ⟨u, hu⟩ := ih
        exact ⟨c :: u, by simp [List.dropWhile_cons, h, hu]⟩
      · exact ⟨[], by simp [List.dropWhile_cons, h]⟩

/-- Python `strip` is a left part of `lstrip` (it only removes trailing slashes). -/
theorem stripSlash_eq_append (s : List Char) :
    ∃ u, lstripSlash s = stripSlash s ++ u := by
  obtain ⟨u, hu⟩ :=
    dropWhile_is_suffix (fun c => c = '/') (lstripSlash s).reverse
  refine ⟨u.reverse, ?_⟩
  have h := congrArg List.reverse hu
  simp only [List.reverse_append, List.reverse_reverse] at h
  rw [stripSlash]
  exact h.symm

/-- Python `strip` yields the empty list or a list not headed by a slash. -/
theorem stripSlash_shape (s : List Char) :
    stripSlash s = [] ∨ ∃ c cs, stripSlash s = c :: cs ∧ ¬ c = '/' := by
  cases hs : stripSlash s with
  | nil => left; rfl
  | cons c cs =>
      right
      refine ⟨c, cs, rfl, ?_⟩
      obtain ⟨u, hu⟩ := stripSlash_eq_append s
      rcases lstripSlash_shape s with h | ⟨c2, cs2, h, hc2⟩
      · rw [h, hs] at hu
        simp at hu
      · rw [h, hs] at hu
        simp only [List.cons_append, List.cons.injEq] at hu
        exact hu.1 ▸ hc2

/-- Python `lstrip` leaves a stripped list alone. -/
theorem lstripSlash_stripSlash (s : List Char) :
    lstripSlash (stripSlash s) = stripSlash s := by
  rcases stripSlash_shape s with h | ⟨c, cs, h, hc⟩
  · rw [h]; rfl
  · rw [h]
    exact lstripSlash_cons_ne c cs hc

/-- Python `startswith` holds on any extension of the pattern. -/
theorem beginsWith_append_self :
    ∀ (p rest : List Char), beginsWith p (p ++ rest) = true := by
  intro p
  induction p with
  | nil => intro rest; rfl
  | cons c cs ih =>
      intro rest
      simp [beginsWith, List.cons_append, ih]

/-- The function `apply_s3_prefix` is idempotent in its key argument. -/
theorem applyS3Prefix_idem (pre key : List Char) :
    applyS3Prefix pre (applyS3Prefix pre key) = applyS3Prefix pre key := by
  by_cases hnp : stripSlash pre = []
  · rw [applyS3Prefix_def pre key, if_pos hnp, applyS3Prefix_def, if_pos hnp,
      lstripSlash_idem]
  · by_cases hnk : lstripSlash key = []
    · rw [applyS3Prefix_def pre key, if_neg hnp, if_pos hnk,
        applyS3Prefix_def pre (stripSlash pre), lstripSlash_stripSlash,
        if_neg hnp, if_neg hnp, if_pos (Or.inl rfl)]
    · by_cases hcond : lstripSlash key = stripSlash pre
          ∨ beginsWith (stripSlash pre ++ ['/']) (lstripSlash key) = true
      · rw [applyS3Prefix_def pre key, if_neg hnp, if_neg hnk, if_pos hcond,
          applyS3Prefix_def pre (lstripSlash key), lstripSlash_idem,
          if_neg hnp, if_neg hnk, if_pos hcond]
      · rw [applyS3Prefix_def pre key, if_neg hnp, if_neg hnk, if_neg hcond]
        obtain ⟨c, cs, hshape, hc⟩ := (stripSlash_shape pre).resolve_left hnp
        have hl : lstripSlash (stripSlash pre ++ '/' :: lstripSlash key)
            = stripSlash pre ++ '/' :: lstripSlash key := by
          rw [hshape, List.cons_append]
          exact lstripSlash_cons_ne c (cs ++ '/' :: lstripSlash key) hc
        have hbeg : beginsWith (stripSlash pre ++ ['/'])
            (stripSlash pre ++ '/' :: lstripSlash key) = true := by
          have h2 : stripSlash pre ++ '/' :: lstripSlash key
              = (stripSlash pre ++ ['/']) ++ lstripSlash key := by
            simp
          rw [h2]
          exact beginsWith_append_self _ _
        rw [applyS3Prefix_def pre (stripSlash pre ++ '/' :: lstripSlash key),
          hl, if_neg hnp, if_neg (by simp), if_pos (Or.inr hbeg)]

/-- C7 counterexample: applying the empty prefix to the key `"/a"` returns
`"a"`, not the key unchanged — `apply_s3_prefix` strips leading slashes from
the key before the empty-prefix early return. -/
theorem claim_C7_counterexample :
    applyS3Prefix [] ['/', 'a'] ≠ ['/', 'a']
    ∧ applyS3Prefix [] ['/', 'a'] = ['a'] :=
  ⟨by decide, by decide⟩

/-- C7 amended: prefix application is idempotent (in particular applying
`"uploads"` to `"uploads/foo.pdf"` returns the key unchanged); applying an
empty prefix returns the key with leading slashes stripped (so unchanged
only when the key has no leading slash); applying a prefix whose
slash-stripped form is non-empty to an empty key returns that stripped
prefix. -/
theorem claim_C7_prefix_application (pre key : List Char) :
    applyS3Prefix "uploads".toList "uploads/foo.pdf".toList
        = "uploads/foo.pdf".toList
    ∧ applyS3Prefix pre (applyS3Prefix pre key) = applyS3Prefix pre key
    ∧ applyS3Prefix [] key = lstripSlash key
    ∧ (lstripSlash key = key → applyS3Prefix [] key = key)
    ∧ (stripSlash pre ≠ [] → applyS3Prefix pre [] = stripSlash pre) := by
  refine ⟨by decide, applyS3Prefix_idem pre key, rfl, ?_, ?_⟩
  · intro h
    rw [applyS3Prefix_def, if_pos (show stripSlash [] = [] from rfl), h]
  · intro h
    rw [applyS3Prefix_def, if_neg h,
      if_pos (show lstripSlash [] = [] from rfl)]

end Curamentor
